import Mathlib

/-!
Verification of the schedule-I-calculator C++ core (rule engine, pricing
engine, effects cache, BFS/DFS search) against its natural-language
specification.  The C++ sources are shallowly embedded: effect sets
(`std::unordered_map<std::string,bool>` used as a set) become `Finset String`,
machine `int` values become `Int` (overflow is irrelevant at the claimed
ranges), the multiplier table (`std::unordered_map<std::string,int>`) becomes
an association list, and the multi-threaded searches are sequentialised in
start-substance-index order (worker-local bests merged under the lock with a
strict greater-than comparison, exactly as the source does; the merged
`profitCents` is independent of merge order).
-/

/-- Substring test, modelling `std::string::find(needle) != npos`:
`leadMatch hay needle` holds when `needle` is an initial segment of `hay`. -/
def leadMatch : List Char → List Char → Bool
  | _, [] => true
  | [], _ :: _ => false
  | h :: hs, n :: ns => h = n && leadMatch hs ns

/-- `hasSubList hay needle` is true when `needle` occurs contiguously in
`hay`; used for the product-name checks in `calculateFinalPrice`. -/
def hasSubList : List Char → List Char → Bool
  | [], needle => needle.isEmpty
  | h :: t, needle => leadMatch (h :: t) needle || hasSubList t needle

/-- `strHasSub hay needle` models `hay.find(needle) != std::string::npos`. -/
def strHasSub (hay needle : String) : Bool :=
  hasSubList hay.toList needle.toList

/-- Rule of a substance (src/cpp/types.h, struct SubstanceRule). -/
structure SubstanceRule where
  type : String
  condition : List String
  ifNotPresent : List String
  target : String
  withEffect : String
deriving DecidableEq, Repr

/-- Substance (src/cpp/types.h, struct Substance); `cost` is in cents. -/
structure Substance where
  name : String
  cost : Int
  defaultEffect : String
  rules : List SubstanceRule
deriving DecidableEq, Repr

/-- Base product (src/cpp/types.h, struct Product). -/
structure Product where
  name : String
  initialEffect : String
deriving DecidableEq, Repr

/-- Placeholder returned by out-of-range list indexing; the searches only
index in bounds, so it never influences a result. -/
def dummySubstance : Substance := ⟨"", 0, "", []⟩

/-- Body of the rules loop of `applySubstanceRules`
(src/cpp/effects.cpp lines 22-71): one rule applied to the mutable
`working` set, with conditions and exclusions checked against the frozen
input snapshot `og`. -/
def applyRule (og : Finset String) (working : Finset String)
    (r : SubstanceRule) : Finset String :=
  if ¬ (∀ c ∈ r.condition, c ∈ og) then working
  else if ¬ (∀ np ∈ r.ifNotPresent, np ∉ og) then working
  else if r.type = "replace" ∧ r.withEffect ≠ "" then
    (if r.target ∈ working ∧ r.withEffect ∉ working then
      insert r.withEffect (working.erase r.target)
    else working)
  else if r.type = "add" then
    (if r.target ∉ working then insert r.target working else working)
  else working

/-- The rules loop of `applySubstanceRules`: all rules folded in list order
over the working set, conditions always read from the frozen snapshot. -/
def applyRulesList (og : Finset String) (rules : List SubstanceRule) :
    Finset String :=
  rules.foldl (applyRule og) og

/-- `applySubstanceRules` (src/cpp/effects.cpp lines 4-88): apply every rule
in order, then add the default effect while the recipe length is below 9. -/
def applySubstanceRules (currentEffects : Finset String) (sub : Substance)
    (recipeLength : Nat) : Finset String :=
  let working := applyRulesList currentEffects sub.rules
  if recipeLength < 9 then insert sub.defaultEffect working else working

/-- Multiplier lookup: `effectMultipliers.find(effect)`, absent entries
contribute 0 (src/cpp/pricing.cpp lines 14-21). -/
def lookupMultiplier (tbl : List (String × Int)) (e : String) : Int :=
  match tbl.find? (fun p => p.fst == e) with
  | some p => p.snd
  | none => 0

/-- Base price selection of `calculateFinalPrice`
(src/cpp/pricing.cpp lines 23-32). -/
def basePriceInCents (productName : String) : Int :=
  if strHasSub productName "Meth" then 7000
  else if strHasSub productName "Cocaine" then 15000
  else 3500

/-- `calculateFinalPrice` (src/cpp/pricing.cpp lines 5-41).  The C++ `/` on
`int` truncates toward zero, hence `Int.tdiv`. -/
def calculateFinalPrice (productName : String) (currentEffects : Finset String)
    (tbl : List (String × Int)) : Int :=
  let totalMultiplier := currentEffects.sum (fun e => lookupMultiplier tbl e)
  basePriceInCents productName +
    Int.tdiv (basePriceInCents productName * totalMultiplier) 100

/-- `calculateFinalCost` (src/cpp/pricing.cpp lines 44-54): sum of the costs
of the substances of the mix. -/
def calculateFinalCost (mix : List Nat) (subs : List Substance) : Int :=
  (mix.map (fun i => (subs.getD i dummySubstance).cost)).sum

/-- Reference effect computation from a given working set and position:
fold `applySubstanceRules` over the remaining substances of the mix, the
substance at 0-based position `pos` being applied with recipe length
`pos + 1`.  This is the fresh-cache branch of `calculateEffectsForMix`
(src/cpp/effects.cpp lines 144-166) stripped of the cache writes. -/
def effectsForMixFrom (subs : List Substance) (es : Finset String) :
    List Nat → Nat → Finset String
  | [], _ => es
  | i :: rest, pos =>
    effectsForMixFrom subs
      (applySubstanceRules es (subs.getD i dummySubstance) (pos + 1)) rest
      (pos + 1)

/-- Reference (uncached) effects of a mix: fold the substances over the
product's initial effect. -/
def effectsForMix (subs : List Substance) (initialEffect : String)
    (mix : List Nat) : Finset String :=
  effectsForMixFrom subs {initialEffect} mix 0

/-- The depth-indexed effects cache of `calculateEffectsForMix`
(src/cpp/effects.cpp lines 100-103): a partial map from depth to the effect
set most recently stored at that depth. -/
def EffectsCache : Type := Nat → Option (Finset String)

/-- The empty cache (start of a worker thread). -/
def emptyCache : EffectsCache := fun _ => none

/-- Store an effect set at a depth, overwriting the previous entry. -/
def cacheSet (c : EffectsCache) (d : Nat) (es : Finset String) :
    EffectsCache :=
  fun k => if k = d then some es else c k

/-- Loop of the two cold branches of `calculateEffectsForMix`
(src/cpp/effects.cpp lines 132-140 and 155-162): apply the remaining
substances of the mix in order, caching every intermediate depth. -/
def calcSteps (subs : List Substance) :
    Finset String → EffectsCache → List Nat → Nat →
      Finset String × EffectsCache
  | es, c, [], _ => (es, c)
  | es, c, i :: rest, pos =>
    let es2 := applySubstanceRules es (subs.getD i dummySubstance) (pos + 1)
    calcSteps subs es2 (cacheSet c (pos + 1) es2) rest (pos + 1)

/-- `calculateEffectsForMix` (src/cpp/effects.cpp lines 91-167) as an
explicit cache-state transformer.  Branch one reuses whatever effect set is
cached at the previous depth and applies only the last substance; branch two
recomputes from the cached depth-0 set; branch three starts from the
product's initial effect and seeds the cache. -/
def calculateEffectsForMix (subs : List Substance) (initialEffect : String)
    (c : EffectsCache) (mix : List Nat) : Finset String × EffectsCache :=
  let d := mix.length
  if d > 0 then
    match c (d - 1) with
    | some prev =>
      let lastIdx := mix.getD (d - 1) 0
      let es := applySubstanceRules prev (subs.getD lastIdx dummySubstance) d
      (es, cacheSet c d es)
    | none =>
      match c 0 with
      | some es0 => calcSteps subs es0 c mix 0
      | none =>
        let es0 : Finset String := {initialEffect}
        calcSteps subs es0 (cacheSet c 0 es0) mix 0
  else
    let es0 : Finset String := {initialEffect}
    (es0, cacheSet c 0 es0)

/-- Best-so-far record threaded through a search: the variables
`bestMix`, `bestProfitCents`, `bestSellPriceCents`, `bestCostCents`
of `findBestMix` / `findBestMixDFS`.  The C++ initialiser of the profit is
`-std::numeric_limits<int>::infinity()`, which for `int` evaluates to 0. -/
structure BestRecord where
  mixIndices : List Nat
  profitCents : Int
  sellPriceCents : Int
  costCents : Int
deriving DecidableEq, Repr

/-- Initial best record: empty mix, profit 0 (see `BestRecord`). -/
def initialBest : BestRecord := ⟨[], 0, 0, 0⟩

/-- Search result (src/cpp/types.h, struct JsBestMixResult, native variant);
`mixArray` holds substance names. -/
structure JsBestMixResult where
  mixArray : List String
  profitCents : Int
  sellPriceCents : Int
  costCents : Int
deriving DecidableEq, Repr

/-- `MixState::toSubstanceNames` (src/cpp/types.h lines 99-108). -/
def toSubstanceNames (mix : List Nat) (subs : List Substance) : List String :=
  mix.map (fun i => (subs.getD i dummySubstance).name)

/-- `MAX_DEPTH` (src/cpp/dfs_algorithm.cpp line 22): capacity of the fixed
path buffer of `DFSState`. -/
def MAX_DEPTH : Nat := 10

/-- `MAX_SUBSTANCES` (src/cpp/dfs_algorithm.cpp line 21): the cap on the
number of DFS worker threads, and hence on the starting substances the
threaded DFS explores. -/
def MAX_SUBSTANCES : Nat := 16

/-- `INT_MAX` for 32-bit `int`. -/
def INT_MAX : Int := 2147483647

/-- One best-so-far update (src/cpp/dfs_algorithm.cpp lines 244-255,
src/cpp/bfs_algorithm.cpp lines 59-70): the record is replaced exactly when
the evaluated profit is strictly greater than the stored one. -/
def updateBest (prod : Product) (tbl : List (String × Int)) (b : BestRecord)
    (mix : List Nat) (es : Finset String) (cost : Int) : BestRecord :=
  let sell := calculateFinalPrice prod.name es tbl
  let profit := sell - cost
  if profit > b.profitCents then ⟨mix, profit, sell, cost⟩ else b

/-- Depth-first visit of the subtree rooted at `path` (already evaluated
substances `path`, current effects `es`, accumulated cost `cost`), with
`fuel` remaining depth levels below `path`.  This is the recursion that the
explicit stack machine of `findBestMixDFS` / `dfsThreadWorker`
(src/cpp/dfs_algorithm.cpp lines 169-296 and 452-560) implements: evaluate
the node, then for each substance index in increasing order descend one
level, applying the substance's rules to the parent's cached effect set
(`effectsCache[depth - 1]`) with recipe length equal to the child depth. -/
def dfsNode (prod : Product) (subs : List Substance)
    (tbl : List (String × Int)) :
    Nat → List Nat → Finset String → Int → BestRecord → BestRecord
  | 0, path, es, cost, b => updateBest prod tbl b path es cost
  | fuel + 1, path, es, cost, b =>
    let b1 := updateBest prod tbl b path es cost
    (List.range subs.length).foldl
      (fun acc j =>
        dfsNode prod subs tbl fuel (path ++ [j])
          (applySubstanceRules es (subs.getD j dummySubstance)
            (path.length + 1))
          (cost + (subs.getD j dummySubstance).cost) acc)
      b1

/-- `findBestMixDFS` (src/cpp/dfs_algorithm.cpp lines 300-604),
sequentialised: one depth-first traversal per spawned worker, capped at
`min(MAX_SUBSTANCES, substances.size())` starting substances
(lines 371-374: only that many threads are created, so starting substances
at index 16 and beyond are never explored), folded against the single best
record in start-index order.  Caveats of the sequentialisation: the real
merge happens under a lock in worker-completion order, so among several
equally maximal profits the winning record (mix, sell, cost) is
schedule-dependent, while `profitCents` is not; the model canonicalises the
winner by index order.  Faithful to the source for `1 ≤ maxDepth ≤ 10`
(= MAX_DEPTH, the capacity of `DFSState::substanceIndices`): at
`maxDepth = 0` the source writes `effectsCache[1]` into a vector of size 1
(lines 114 and 122) — undefined behaviour the total model cannot
represent. -/
def findBestMixDFS (prod : Product) (subs : List Substance)
    (tbl : List (String × Int)) (maxDepth : Nat) : JsBestMixResult :=
  let core := (List.range (min MAX_SUBSTANCES subs.length)).foldl
    (fun b s =>
      dfsNode prod subs tbl (maxDepth - 1) [s]
        (applySubstanceRules {prod.initialEffect}
          (subs.getD s dummySubstance) 1)
        ((subs.getD s dummySubstance).cost) b)
    initialBest
  ⟨toSubstanceNames core.mixIndices subs, core.profitCents,
    core.sellPriceCents, core.costCents⟩

/-- One frontier element processed by `recursiveBFSThreaded`
(src/cpp/bfs_algorithm.cpp lines 178-265): compute the effects through the
depth-indexed cache, then evaluate the mix against the best record. -/
def bfsStep (prod : Product) (subs : List Substance)
    (tbl : List (String × Int)) (st : EffectsCache × BestRecord)
    (mix : List Nat) : EffectsCache × BestRecord :=
  let ec := calculateEffectsForMix subs prod.initialEffect st.1 mix
  (ec.2, updateBest prod tbl st.2 mix ec.1 (calculateFinalCost mix subs))

/-- Next breadth-first frontier: every frontier mix extended by every
substance index, in frontier-then-index order
(src/cpp/bfs_algorithm.cpp lines 236-245). -/
def bfsChildren (n : Nat) (mixes : List (List Nat)) : List (List Nat) :=
  mixes.flatMap (fun m => (List.range n).map (fun j => m ++ [j]))

/-- `recursiveBFSThreaded` (src/cpp/bfs_algorithm.cpp lines 153-283):
process the current frontier in order through the shared cache, then recurse
on the next frontier while it is non-empty and the maximum depth has not
been reached (`fuel` = maxDepth - currentDepth). -/
def bfsRec (prod : Product) (subs : List Substance)
    (tbl : List (String × Int)) :
    Nat → List (List Nat) → EffectsCache → BestRecord → BestRecord
  | 0, mixes, c, b => (mixes.foldl (bfsStep prod subs tbl) (c, b)).2
  | fuel + 1, mixes, c, b =>
    let cb := mixes.foldl (bfsStep prod subs tbl) (c, b)
    let next := bfsChildren subs.length mixes
    if next.isEmpty then cb.2 else bfsRec prod subs tbl fuel next cb.1 cb.2

/-- `bfsThreadWorker` (src/cpp/bfs_algorithm.cpp lines 289-349): worker for
one starting substance, with a fresh thread-local cache and a thread-local
best record initialised like the global one. -/
def bfsWorker (prod : Product) (subs : List Substance)
    (tbl : List (String × Int)) (maxDepth : Nat) (s : Nat) : BestRecord :=
  bfsRec prod subs tbl (maxDepth - 1) [[s]] emptyCache initialBest

/-- `findBestMix` (src/cpp/bfs_algorithm.cpp lines 353-530), native path:
one worker per starting substance (line 409, no cap), each worker's final
best merged into the global best under the lock when strictly greater
(lines 327-335).  The model sequentialises the merge in start-index order;
the real merge order is worker-completion order, so among equal maximal
profits the returned mix/sell/cost is schedule-dependent and only
`profitCents` of this model is guaranteed of the program. -/
def findBestMix (prod : Product) (subs : List Substance)
    (tbl : List (String × Int)) (maxDepth : Nat) : JsBestMixResult :=
  let core := (List.range subs.length).foldl
    (fun g s =>
      let w := bfsWorker prod subs tbl maxDepth s
      if w.profitCents > g.profitCents then w else g)
    initialBest
  ⟨toSubstanceNames core.mixIndices subs, core.profitCents,
    core.sellPriceCents, core.costCents⟩

/-- `DFSState` (src/cpp/dfs_algorithm.h / dfs_algorithm.cpp lines 28-79):
fixed-capacity path of substance indices plus a running cost accumulator.
The used prefix of the index buffer is modelled as a list of length
`depth`. -/
structure DFSState where
  substanceIndices : List Nat
  currentCost : Int
deriving DecidableEq, Repr

/-- `DFSState::addSubstance` (src/cpp/dfs_algorithm.cpp lines 37-45): push
an index and add its cost, but only while `depth < MAX_DEPTH`; beyond the
capacity the call silently leaves the state unchanged. -/
def DFSState.addSubstance (st : DFSState) (index : Nat)
    (subs : List Substance) : DFSState :=
  if st.substanceIndices.length < MAX_DEPTH then
    ⟨st.substanceIndices ++ [index],
      st.currentCost + (subs.getD index dummySubstance).cost⟩
  else st

/-- Mixes visited by the depth-first traversal below (and including) a node:
the node itself, then for each substance index the subtree one level deeper,
in preorder. -/
def subtreeMixes (n : Nat) : Nat → List Nat → List (List Nat)
  | 0, path => [path]
  | fuel + 1, path =>
    path :: (List.range n).flatMap (fun j => subtreeMixes n fuel (path ++ [j]))

/-- All mixes evaluated by `findBestMixDFS`, in evaluation order: one
subtree per spawned worker, the starting substances capped at
`min(MAX_SUBSTANCES, n)` exactly as the thread-creation loop is
(src/cpp/dfs_algorithm.cpp lines 371-374). -/
def dfsCandidates (n maxDepth : Nat) : List (List Nat) :=
  (List.range (min MAX_SUBSTANCES n)).flatMap
    (fun s => subtreeMixes n (maxDepth - 1) [s])

/-- Frontiers visited by one BFS worker, shallowest first. -/
def bfsLevels (n : Nat) : Nat → List (List Nat) → List (List (List Nat))
  | 0, mixes => [mixes]
  | fuel + 1, mixes =>
    let next := bfsChildren n mixes
    if next.isEmpty then [mixes] else mixes :: bfsLevels n fuel next

/-- Mixes evaluated by one BFS worker, in evaluation order. -/
def bfsWorkerMixes (n fuel : Nat) (mixes : List (List Nat)) :
    List (List Nat) :=
  (bfsLevels n fuel mixes).flatten

/-- All mixes evaluated by `findBestMix`, worker by worker. -/
def bfsCandidates (n maxDepth : Nat) : List (List Nat) :=
  (List.range n).flatMap (fun s => bfsWorkerMixes n (maxDepth - 1) [[s]])

/-- All index sequences of a given length with entries below `n`. -/
def allSeqs (n : Nat) : Nat → List (List Nat)
  | 0 => [[]]
  | d + 1 =>
    (allSeqs n d).flatMap (fun t => (List.range n).map (fun j => t ++ [j]))

/-- All mixes of length 1..maxDepth over `n` substances: the search space
described by the specification. -/
def allMixes (n maxDepth : Nat) : List (List Nat) :=
  (List.range maxDepth).flatMap (fun d => allSeqs n (d + 1))

/-- Maximum of a list of integers (0 for the empty list, which the claims
never hit). -/
def listMaxI : List Int → Int
  | [] => 0
  | x :: xs => xs.foldl max x

/-- Profit of a single mix under the reference (uncached) effect
computation: sale price of its effects minus its cost. -/
def mixProfit (prod : Product) (subs : List Substance)
    (tbl : List (String × Int)) (mix : List Nat) : Int :=
  calculateFinalPrice prod.name (effectsForMix subs prod.initialEffect mix)
      tbl -
    calculateFinalCost mix subs

/-- The specification's optimum: the maximum profit over all mixes of
length 1..maxDepth. -/
def bestPossibleProfit (prod : Product) (subs : List Substance)
    (tbl : List (String × Int)) (maxDepth : Nat) : Int :=
  listMaxI ((allMixes subs.length maxDepth).map (mixProfit prod subs tbl))

/-- The 64-bit combination count (src/cpp/bfs_algorithm.cpp lines 381-387,
src/cpp/dfs_algorithm.cpp lines 319-325): sum over depth `d` of
`count ^ d` for `d = 1..maxDepth`, accumulated in `int64_t` (the source
computes each power with double-precision `pow`, exact for every value
below 2^53). -/
def totalCombinations64 (count maxDepth : Nat) : Int :=
  (Finset.range maxDepth).sum (fun d => (count : Int) ^ (d + 1))

/-- The progress denominator of `findBestMix`: the 64-bit total clamped to
`INT_MAX` (src/cpp/bfs_algorithm.cpp lines 390-391). -/
def bfsTotalCombinations (n maxDepth : Nat) : Int :=
  min (totalCombinations64 n maxDepth) INT_MAX

/-- The progress denominator of `findBestMixDFS`: the substance count is
first capped at `MAX_SUBSTANCES` (src/cpp/dfs_algorithm.cpp lines 320-328),
then summed and clamped. -/
def dfsTotalCombinations (n maxDepth : Nat) : Int :=
  min (totalCombinations64 (min MAX_SUBSTANCES n) maxDepth) INT_MAX

/-- Evaluation of one candidate mix with the reference (uncached) effects:
the body of the search loop as it behaves when the cache is parent-correct.
`findBestMixDFS` is proved equal to a fold of this step over its candidate
list. -/
def pureStep (prod : Product) (subs : List Substance)
    (tbl : List (String × Int)) (b : BestRecord) (mix : List Nat) :
    BestRecord :=
  updateBest prod tbl b mix (effectsForMix subs prod.initialEffect mix)
    (calculateFinalCost mix subs)

/-- Profits actually evaluated by a BFS scan of `mixes` starting from cache
state `c` (each step reads the possibly stale depth-indexed cache, exactly
as `bfsStep` does). -/
def evalProfits (prod : Product) (subs : List Substance)
    (tbl : List (String × Int)) :
    EffectsCache → List (List Nat) → List Int
  | _, [] => []
  | c, m :: rest =>
    let ec := calculateEffectsForMix subs prod.initialEffect c m
    (calculateFinalPrice prod.name ec.1 tbl - calculateFinalCost m subs) ::
      evalProfits prod subs tbl ec.2 rest

/-- Every profit value evaluated by `findBestMix`, worker by worker, each
worker starting from a fresh thread-local cache. -/
def bfsEvaluatedProfits (prod : Product) (subs : List Substance)
    (tbl : List (String × Int)) (maxDepth : Nat) : List Int :=
  (List.range subs.length).flatMap (fun s =>
    evalProfits prod subs tbl emptyCache
      (bfsWorkerMixes subs.length (maxDepth - 1) [[s]]))

/-- Base price exactly as the specification words it (section 4.2):
7000 cents if the product name contains "Meth", 15000 if it contains
"Cocaine", else 3500. -/
def specBasePrice (productName : String) : Int :=
  if strHasSub productName "Meth" then 7000
  else if strHasSub productName "Cocaine" then 15000
  else 3500

/-- The specification's search-space size (sections 4.4 and 8):
sum over d = 1..maxDepth of substanceCount ^ d. -/
def specSearchSpaceN (n maxDepth : Nat) : Nat :=
  (Finset.range maxDepth).sum (fun d => n ^ (d + 1))

/-- A progress-callback invocation: (depth, processed, total). -/
abbrev ProgressEvent : Type := Nat × Int × Int

/-- Adaptive progress-report frequency with base interval 1000
(src/cpp/bfs_algorithm.cpp lines 109-113, and the single-threaded DFS,
src/cpp/dfs_algorithm.cpp lines 512-517): 1000 for depth at most 5, then
1000 * (depth - 4). -/
def reportFrequencyAt (depth : Nat) : Nat :=
  if depth > 5 then 1000 * (depth - 4) else 1000

/-- Progress events emitted while one BFS frontier is processed
(src/cpp/bfs_algorithm.cpp lines 173-271): each mix increments the shared
processed counter and a per-level batch counter; once the batch reaches the
adaptive frequency an event carrying the current counter fires and the
batch resets, and a non-empty leftover batch is flushed after the level. -/
def bfsLevelScan (d : Nat) (total : Int) (global : Int)
    (mixes : List (List Nat)) : Int × List ProgressEvent :=
  let st := mixes.foldl
    (fun (st : Nat × Int × List ProgressEvent) _ =>
      let batch := st.1 + 1
      let g2 := st.2.1 + 1
      if reportFrequencyAt d ≤ batch then (0, g2, st.2.2 ++ [(d, g2, total)])
      else (batch, g2, st.2.2))
    (0, global, [])
  (st.2.1, st.2.2 ++ if 0 < st.1 then [(d, st.2.1, total)] else [])

/-- Progress events of one BFS worker across its frontier levels
(`recursiveBFSThreaded`), threading the shared processed counter. -/
def bfsWorkerScan (n : Nat) (total : Int) :
    Nat → Nat → List (List Nat) → Int → Int × List ProgressEvent
  | 0, d, mixes, global => bfsLevelScan d total global mixes
  | fuel + 1, d, mixes, global =>
    let lv := bfsLevelScan d total global mixes
    let next := bfsChildren n mixes
    if next.isEmpty then lv
    else
      let rest := bfsWorkerScan n total fuel (d + 1) next lv.1
      (rest.1, lv.2 ++ rest.2)

/-- The full progress-event trace of `findBestMix`
(src/cpp/bfs_algorithm.cpp lines 399-440), sequentialised in worker index
order: an initial (1, 0, total) report, the workers' periodic reports, and
the unconditional final (maxDepth, total, total) report after the join. -/
def findBestMixEvents (n maxDepth : Nat) : List ProgressEvent :=
  let total := bfsTotalCombinations n maxDepth
  let workers := (List.range n).foldl
    (fun (st : Int × List ProgressEvent) s =>
      let w := bfsWorkerScan n total (maxDepth - 1) 1 [[s]] st.1
      (w.1, st.2 ++ w.2))
    (0, [])
  (1, 0, total) :: workers.2 ++ [(maxDepth, total, total)]

/-- Progress events of one DFS start substance (single-threaded path,
src/cpp/dfs_algorithm.cpp lines 414-567): the start node only bumps the
processed counter; every stack node also bumps the per-worker batch, firing
an event at the adaptive frequency for its depth; a leftover batch is
flushed after the worker with depth reported as maxDepth. -/
def dfsWorkerScan (total : Int) (maxDepth : Nat) (nodes : List (List Nat))
    (processed : Int) : Int × List ProgressEvent :=
  match nodes with
  | [] => (processed, [])
  | _ :: rest =>
    let st := rest.foldl
      (fun (st : Nat × Int × List ProgressEvent) node =>
        let batch := st.1 + 1
        let p := st.2.1 + 1
        if reportFrequencyAt node.length ≤ batch then
          (0, p, st.2.2 ++ [(node.length, p, total)])
        else (batch, p, st.2.2))
      (0, processed + 1, [])
    (st.2.1, st.2.2 ++ if 0 < st.1 then [(maxDepth, st.2.1, total)] else [])

/-- The full progress-event trace of `findBestMixDFS`
(src/cpp/dfs_algorithm.cpp lines 340-344 and 570-574): an initial
(1, 0, total) report, the per-start-substance periodic reports, and the
unconditional final (maxDepth, total, total) report. -/
def findBestMixDFSEvents (n maxDepth : Nat) : List ProgressEvent :=
  let total := dfsTotalCombinations n maxDepth
  let workers := (List.range n).foldl
    (fun (st : Int × List ProgressEvent) s =>
      let w := dfsWorkerScan total maxDepth
        (subtreeMixes n (maxDepth - 1) [s]) st.1
      (w.1, st.2 ++ w.2))
    (0, [])
  (1, 0, total) :: workers.2 ++ [(maxDepth, total, total)]

/-- Product of the specification's Example 1. -/
def exProduct : Product := ⟨"Weed", "Calming"⟩

/-- Substance list of the specification's Example 1. -/
def exSubs : List Substance := [⟨"Cuke", 200, "Energizing", []⟩]

/-- Multiplier table of the specification's Example 1. -/
def exTbl : List (String × Int) := [("Calming", 20), ("Energizing", 10)]

/-- A single substance whose cost exceeds any attainable sale price, so
every mix has strictly negative profit. -/
def priceySubs : List Substance := [⟨"X", 10000, "E", []⟩]

/-- Two rule-free substances with distinct default effects, used to drive
the breadth-first cache into reusing a stale parent effect set. -/
def subsAB : List Substance := [⟨"A", 0, "EA", []⟩, ⟨"B", 5000, "EB", []⟩]

/-- Multiplier table rewarding only substance B's default effect. -/
def tblB : List (String × Int) := [("EB", 100)]

/-- Product with a one-letter initial effect for the cache scenarios. -/
def cxProduct : Product := ⟨"Weed", "I"⟩

/-- Cache state after `calculateEffectsForMix` served the BFS-ordered
queries [0]; [0,0]; [0,1] (one worker; exactly the call history of
`recursiveBFSThreaded` at depths 1 and 2): depth 2 now caches the effects
of [0,1], the last depth-2 mix processed. -/
def c3history : EffectsCache :=
  (calculateEffectsForMix subsAB "I"
    (calculateEffectsForMix subsAB "I"
      (calculateEffectsForMix subsAB "I" emptyCache [0]).2 [0, 0]).2
    [0, 1]).2

/-- Substance with an unconditional add rule and default effect "D", used
for the 9-ingredient cap example. -/
def capSub : Substance := ⟨"S", 0, "D", [⟨"add", [], [], "X", ""⟩]⟩

/-- A DFS path state already filled to the MAX_DEPTH capacity. -/
def fullDFSState : DFSState := ⟨[0, 0, 0, 0, 0, 0, 0, 0, 0, 0], 0⟩

/-- Packaging of the final best record into the returned `JsBestMixResult`
(src/cpp/dfs_algorithm.cpp lines 576-596). -/
def packResult (subs : List Substance) (b : BestRecord) : JsBestMixResult :=
  ⟨toSubstanceNames b.mixIndices subs, b.profitCents, b.sellPriceCents,
    b.costCents⟩

/-- Linear-scan form of the DFS search: the strict-improvement fold of
`pureStep` over the candidate list in visit order. -/
def dfsCore (prod : Product) (subs : List Substance)
    (tbl : List (String × Int)) (maxDepth : Nat) : BestRecord :=
  (dfsCandidates subs.length maxDepth).foldl (pureStep prod subs tbl)
    initialBest

theorem foldl_congr_mem {α β : Type} {f g : β → α → β} :
    ∀ (l : List α) (b : β), (∀ a x, x ∈ l → f a x = g a x) →
      l.foldl f b = l.foldl g b := by
  intro l
  induction l with
  | nil => intro b _; rfl
  | cons x xs ih =>
    intro b h
    simp only [List.foldl_cons]
    rw [h b x (by simp)]
    exact ih _ (fun a y hy => h a y (by simp [hy]))

theorem foldl_flatMap_eq {α β γ : Type} (f : γ → β → γ) (g : α → List β) :
    ∀ (l : List α) (z : γ),
      (l.flatMap g).foldl f z =
        l.foldl (fun acc x => (g x).foldl f acc) z := by
  intro l
  induction l with
  | nil => intro z; rfl
  | cons x xs ih =>
    intro z
    rw [List.flatMap_cons, List.foldl_append, List.foldl_cons, ih]

theorem if_gt_eq_max (a p : Int) : (if p > a then p else a) = max a p := by
  rw [max_def]
  split_ifs <;> omega

theorem le_foldl_max : ∀ (l : List Int) (a : Int), a ≤ l.foldl max a := by
  intro l
  induction l with
  | nil => intro a; exact le_refl a
  | cons x xs ih =>
    intro a
    exact le_trans (le_max_left a x) (ih (max a x))

theorem mem_le_foldl_max :
    ∀ (l : List Int) (a x : Int), x ∈ l → x ≤ l.foldl max a := by
  intro l
  induction l with
  | nil => intro a x hx; cases hx
  | cons y ys ih =>
    intro a x hx
    rcases List.mem_cons.mp hx with h | h
    · subst h
      exact le_trans (le_max_right a x) (le_foldl_max ys (max a x))
    · exact ih (max a y) x h

theorem foldl_max_shift :
    ∀ (l : List Int) (a x : Int), l.foldl max (max a x) = max a (l.foldl max x) := by
  intro l
  induction l with
  | nil => intro a x; rfl
  | cons y ys ih =>
    intro a x
    simp only [List.foldl_cons]
    rw [max_assoc, ih]

theorem foldl_max_eq_listMaxI :
    ∀ (l : List Int) (a : Int), l ≠ [] → l.foldl max a = max a (listMaxI l) := by
  intro l a h
  match l with
  | [] => cases h rfl
  | x :: xs =>
    simp only [List.foldl_cons, listMaxI]
    exact foldl_max_shift xs a x

theorem le_listMaxI (l : List Int) (x : Int) (hx : x ∈ l) : x ≤ listMaxI l := by
  match l with
  | [] => cases hx
  | y :: ys =>
    simp only [listMaxI]
    rcases List.mem_cons.mp hx with h | h
    · subst h; exact le_foldl_max ys x
    · exact mem_le_foldl_max ys y x h

theorem foldl_max_mem :
    ∀ (l : List Int) (x : Int), l.foldl max x ∈ x :: l := by
  intro l
  induction l with
  | nil => intro x; simp
  | cons y ys ih =>
    intro x
    simp only [List.foldl_cons]
    rcases List.mem_cons.mp (ih (max x y)) with h2 | h2
    · rcases max_choice x y with h | h
      · rw [h2, h]; simp
      · rw [h2, h]; simp
    · simp [h2]

theorem listMaxI_mem (l : List Int) (h : l ≠ []) : listMaxI l ∈ l := by
  match l with
  | [] => cases h rfl
  | x :: xs => simpa [listMaxI] using foldl_max_mem xs x

theorem listMaxI_congr (l1 l2 : List Int) (h1 : l1 ≠ []) (h2 : l2 ≠ [])
    (h : ∀ x, x ∈ l1 ↔ x ∈ l2) : listMaxI l1 = listMaxI l2 :=
  le_antisymm (le_listMaxI l2 _ ((h _).1 (listMaxI_mem l1 h1)))
    (le_listMaxI l1 _ ((h _).2 (listMaxI_mem l2 h2)))

theorem updateBest_profit (prod : Product) (tbl : List (String × Int))
    (b : BestRecord) (mix : List Nat) (es : Finset String) (cost : Int) :
    (updateBest prod tbl b mix es cost).profitCents =
      max b.profitCents (calculateFinalPrice prod.name es tbl - cost) := by
  rw [← if_gt_eq_max]
  simp only [updateBest]
  split_ifs <;> rfl

theorem le_updateBest_profit (prod : Product) (tbl : List (String × Int))
    (b : BestRecord) (mix : List Nat) (es : Finset String) (cost : Int) :
    b.profitCents ≤ (updateBest prod tbl b mix es cost).profitCents := by
  rw [updateBest_profit]; exact le_max_left _ _

theorem updateBest_eq_self (prod : Product) (tbl : List (String × Int))
    (b : BestRecord) (mix : List Nat) (es : Finset String) (cost : Int)
    (h : calculateFinalPrice prod.name es tbl - cost ≤ b.profitCents) :
    updateBest prod tbl b mix es cost = b := by
  simp only [updateBest]
  rw [if_neg (by omega)]

theorem effectsForMixFrom_concat (subs : List Substance) :
    ∀ (xs : List Nat) (es : Finset String) (pos j : Nat),
      effectsForMixFrom subs es (xs ++ [j]) pos =
        applySubstanceRules (effectsForMixFrom subs es xs pos)
          (subs.getD j dummySubstance) (pos + xs.length + 1) := by
  intro xs
  induction xs with
  | nil =>
    intro es pos j
    simp [effectsForMixFrom]
  | cons x rest ih =>
    intro es pos j
    simp only [List.cons_append, effectsForMixFrom, List.length_cons,
      List.append_eq]
    rw [ih]
    congr 1
    omega

theorem effectsForMix_concat (subs : List Substance) (init : String)
    (path : List Nat) (j : Nat) :
    effectsForMix subs init (path ++ [j]) =
      applySubstanceRules (effectsForMix subs init path)
        (subs.getD j dummySubstance) (path.length + 1) := by
  unfold effectsForMix
  rw [effectsForMixFrom_concat]
  congr 1
  omega

theorem effectsForMix_single (subs : List Substance) (init : String)
    (s : Nat) :
    effectsForMix subs init [s] =
      applySubstanceRules {init} (subs.getD s dummySubstance) 1 := rfl

theorem calculateFinalCost_concat (subs : List Substance) (path : List Nat)
    (j : Nat) :
    calculateFinalCost (path ++ [j]) subs =
      calculateFinalCost path subs + (subs.getD j dummySubstance).cost := by
  simp [calculateFinalCost]

theorem calculateFinalCost_single (subs : List Substance) (s : Nat) :
    calculateFinalCost [s] subs = (subs.getD s dummySubstance).cost := by
  simp [calculateFinalCost]

theorem calcSteps_fst (subs : List Substance) :
    ∀ (mix : List Nat) (es : Finset String) (c : EffectsCache) (pos : Nat),
      (calcSteps subs es c mix pos).1 = effectsForMixFrom subs es mix pos := by
  intro mix
  induction mix with
  | nil => intro es c pos; rfl
  | cons i rest ih =>
    intro es c pos
    simp only [calcSteps, effectsForMixFrom]
    exact ih _ _ _

theorem calculateEffectsForMix_fresh (subs : List Substance) (init : String)
    (mix : List Nat) :
    (calculateEffectsForMix subs init emptyCache mix).1 =
      effectsForMix subs init mix := by
  match mix with
  | [] => rfl
  | i :: rest =>
    show (calculateEffectsForMix subs init emptyCache (i :: rest)).1 = _
    simp only [calculateEffectsForMix, List.length_cons, emptyCache]
    rw [if_pos (Nat.succ_pos _)]
    exact calcSteps_fst subs (i :: rest) _ _ 0

theorem pureStep_profit (prod : Product) (subs : List Substance)
    (tbl : List (String × Int)) (b : BestRecord) (mix : List Nat) :
    (pureStep prod subs tbl b mix).profitCents =
      max b.profitCents (mixProfit prod subs tbl mix) := by
  simp [pureStep, mixProfit, updateBest_profit]

theorem pureStep_eq_record (prod : Product) (subs : List Substance)
    (tbl : List (String × Int)) (b : BestRecord) (mix : List Nat)
    (h : b.profitCents < mixProfit prod subs tbl mix) :
    pureStep prod subs tbl b mix =
      ⟨mix, mixProfit prod subs tbl mix,
        calculateFinalPrice prod.name (effectsForMix subs prod.initialEffect mix)
          tbl,
        calculateFinalCost mix subs⟩ := by
  simp only [pureStep, updateBest, mixProfit] at h ⊢
  rw [if_pos h]

theorem pureStep_eq_self (prod : Product) (subs : List Substance)
    (tbl : List (String × Int)) (b : BestRecord) (mix : List Nat)
    (h : mixProfit prod subs tbl mix ≤ b.profitCents) :
    pureStep prod subs tbl b mix = b :=
  updateBest_eq_self prod tbl b mix _ _ h

theorem foldl_pureStep_profit (prod : Product) (subs : List Substance)
    (tbl : List (String × Int)) :
    ∀ (l : List (List Nat)) (b : BestRecord),
      (l.foldl (pureStep prod subs tbl) b).profitCents =
        (l.map (mixProfit prod subs tbl)).foldl max b.profitCents := by
  intro l
  induction l with
  | nil => intro b; rfl
  | cons m rest ih =>
    intro b
    simp only [List.foldl_cons, List.map_cons]
    rw [ih, pureStep_profit]

theorem foldl_pureStep_mem (prod : Product) (subs : List Substance)
    (tbl : List (String × Int)) :
    ∀ (l : List (List Nat)) (b : BestRecord),
      l.foldl (pureStep prod subs tbl) b = b ∨
        ∃ m ∈ l, l.foldl (pureStep prod subs tbl) b =
          ⟨m, mixProfit prod subs tbl m,
            calculateFinalPrice prod.name
              (effectsForMix subs prod.initialEffect m) tbl,
            calculateFinalCost m subs⟩ := by
  intro l
  induction l with
  | nil => intro b; left; rfl
  | cons m rest ih =>
    intro b
    rw [List.foldl_cons]
    rcases ih (pureStep prod subs tbl b m) with h | ⟨m2, hm2, h⟩
    · by_cases hp : b.profitCents < mixProfit prod subs tbl m
      · right
        exact ⟨m, by simp, by rw [h, pureStep_eq_record prod subs tbl b m hp]⟩
      · left
        rw [pureStep_eq_self prod subs tbl b m (by omega)] at h ⊢
        exact h
    · right
      exact ⟨m2, List.mem_cons_of_mem _ hm2, h⟩

theorem foldl_pureStep_nochange (prod : Product) (subs : List Substance)
    (tbl : List (String × Int)) :
    ∀ (l : List (List Nat)) (b : BestRecord),
      (∀ m ∈ l, mixProfit prod subs tbl m ≤ b.profitCents) →
        l.foldl (pureStep prod subs tbl) b = b := by
  intro l
  induction l with
  | nil => intro b _; rfl
  | cons m rest ih =>
    intro b h
    rw [List.foldl_cons, pureStep_eq_self prod subs tbl b m (h m (by simp))]
    exact ih b (fun m2 hm2 => h m2 (List.mem_cons_of_mem _ hm2))

theorem dfsNode_eq_foldl (prod : Product) (subs : List Substance)
    (tbl : List (String × Int)) :
    ∀ (fuel : Nat) (path : List Nat) (b : BestRecord),
      dfsNode prod subs tbl fuel path
          (effectsForMix subs prod.initialEffect path)
          (calculateFinalCost path subs) b =
        (subtreeMixes subs.length fuel path).foldl (pureStep prod subs tbl)
          b := by
  intro fuel
  induction fuel with
  | zero => intro path b; rfl
  | succ k ih =>
    intro path b
    simp only [dfsNode, subtreeMixes, List.foldl_cons]
    rw [foldl_flatMap_eq]
    have hseed : updateBest prod tbl b path
        (effectsForMix subs prod.initialEffect path)
        (calculateFinalCost path subs) = pureStep prod subs tbl b path := rfl
    rw [hseed]
    exact foldl_congr_mem _ _ (fun acc j _ => by
      rw [← effectsForMix_concat, ← calculateFinalCost_concat, ih])

theorem findBestMixDFS_eq (prod : Product) (subs : List Substance)
    (tbl : List (String × Int)) (maxDepth : Nat) :
    findBestMixDFS prod subs tbl maxDepth =
      packResult subs (dfsCore prod subs tbl maxDepth) := by
  simp only [findBestMixDFS, packResult, dfsCore, dfsCandidates]
  rw [foldl_flatMap_eq]
  have hbody : ∀ (b : BestRecord) (s : Nat),
      dfsNode prod subs tbl (maxDepth - 1) [s]
        (applySubstanceRules {prod.initialEffect}
          (subs.getD s dummySubstance) 1)
        ((subs.getD s dummySubstance).cost) b =
      (subtreeMixes subs.length (maxDepth - 1) [s]).foldl
        (pureStep prod subs tbl) b := by
    intro b s
    rw [← effectsForMix_single, ← calculateFinalCost_single subs s]
    exact dfsNode_eq_foldl prod subs tbl _ _ _
  rw [foldl_congr_mem _ _ (fun a x _ => hbody a x)]

theorem mem_subtreeMixes (n : Nat) :
    ∀ (fuel : Nat) (path t : List Nat),
      t ∈ subtreeMixes n fuel path ↔
        ∃ suf, t = path ++ suf ∧ suf.length ≤ fuel ∧ ∀ j ∈ suf, j < n := by
  intro fuel
  induction fuel with
  | zero =>
    intro path t
    simp only [subtreeMixes, List.mem_singleton]
    constructor
    · rintro rfl
      exact ⟨[], by simp⟩
    · rintro ⟨suf, rfl, hlen, _⟩
      have hs : suf = [] := List.eq_nil_of_length_eq_zero (Nat.le_zero.mp hlen)
      simp [hs]
  | succ k ih =>
    intro path t
    simp only [subtreeMixes, List.mem_cons, List.mem_flatMap, List.mem_range]
    constructor
    · rintro (rfl | ⟨j, hj, ht⟩)
      · exact ⟨[], by simp⟩
      · rcases (ih (path ++ [j]) t).1 ht with ⟨suf, rfl, hlen, hall⟩
        refine ⟨j :: suf, by simp, by simp only [List.length_cons]; omega, ?_⟩
        intro x hx
        rcases List.mem_cons.mp hx with rfl | hx
        · exact hj
        · exact hall x hx
    · rintro ⟨suf, rfl, hlen, hall⟩
      match suf with
      | [] => left; simp
      | j :: suf2 =>
        right
        refine ⟨j, hall j (by simp), (ih (path ++ [j]) _).2
          ⟨suf2, by simp, ?_, fun x hx => hall x (by simp [hx])⟩⟩
        simp only [List.length_cons] at hlen
        omega
theorem mem_allSeqs (n : Nat) :
    ∀ (d : Nat) (t : List Nat),
      t ∈ allSeqs n d ↔ t.length = d ∧ ∀ j ∈ t, j < n := by
  intro d
  induction d with
  | zero =>
    intro t
    simp only [allSeqs, List.mem_singleton]
    constructor
    · rintro rfl; simp
    · rintro ⟨hlen, _⟩
      exact List.eq_nil_of_length_eq_zero hlen
  | succ k ih =>
    intro t
    simp only [allSeqs, List.mem_flatMap, List.mem_map, List.mem_range]
    constructor
    · rintro ⟨t2, ht2, j, hj, rfl⟩
      rcases (ih t2).1 ht2 with ⟨hlen, hall⟩
      refine ⟨by simp [hlen], ?_⟩
      intro x hx
      rcases List.mem_append.mp hx with hx | hx
      · exact hall x hx
      · simp only [List.mem_singleton] at hx
        exact hx ▸ hj
    · rintro ⟨hlen, hall⟩
      have hne : t ≠ [] := by
        intro h
        rw [h] at hlen
        simp at hlen
      refine ⟨t.dropLast, (ih t.dropLast).2 ⟨?_, ?_⟩, t.getLast hne, ?_, ?_⟩
      · rw [List.length_dropLast, hlen]
        omega
      · exact fun x hx => hall x (List.dropLast_subset t hx)
      · exact hall _ (List.getLast_mem hne)
      · exact List.dropLast_append_getLast hne

theorem mem_allMixes (n D : Nat) (t : List Nat) :
    t ∈ allMixes n D ↔ t ≠ [] ∧ t.length ≤ D ∧ ∀ j ∈ t, j < n := by
  simp only [allMixes, List.mem_flatMap, List.mem_range]
  constructor
  · rintro ⟨d, hd, ht⟩
    rcases (mem_allSeqs n (d + 1) t).1 ht with ⟨hlen, hall⟩
    refine ⟨?_, by omega, hall⟩
    intro h
    rw [h] at hlen
    simp at hlen
  · rintro ⟨hne, hlen, hall⟩
    have hpos : 0 < t.length := List.length_pos.mpr hne
    exact ⟨t.length - 1, by omega,
      (mem_allSeqs n (t.length - 1 + 1) t).2 ⟨by omega, hall⟩⟩

theorem mem_dfsCandidates (n D : Nat) (hn16 : n ≤ MAX_SUBSTANCES)
    (hD : 1 ≤ D) (t : List Nat) :
    t ∈ dfsCandidates n D ↔ t ≠ [] ∧ t.length ≤ D ∧ ∀ j ∈ t, j < n := by
  simp only [dfsCandidates, List.mem_flatMap, List.mem_range,
    min_eq_right hn16]
  constructor
  · rintro ⟨s, hs, ht⟩
    rcases (mem_subtreeMixes n (D - 1) [s] t).1 ht with ⟨suf, rfl, hlen, hall⟩
    refine ⟨by simp, by simp only [List.singleton_append, List.length_cons]; omega, ?_⟩
    intro x hx
    rcases List.mem_append.mp hx with hx | hx
    · simp only [List.mem_singleton] at hx
      exact hx ▸ hs
    · exact hall x hx
  · rintro ⟨hne, hlen, hall⟩
    match t with
    | s :: rest =>
      refine ⟨s, hall s (by simp), (mem_subtreeMixes n (D - 1) [s] _).2
        ⟨rest, by simp, ?_, fun x hx => hall x (by simp [hx])⟩⟩
      simp only [List.length_cons] at hlen
      omega

theorem dfsCandidates_subset_allMixes (n D : Nat) (hD : 1 ≤ D)
    (t : List Nat) (ht : t ∈ dfsCandidates n D) : t ∈ allMixes n D := by
  simp only [dfsCandidates, List.mem_flatMap, List.mem_range] at ht
  rcases ht with ⟨s, hs, ht⟩
  have hsn : s < n := lt_of_lt_of_le hs (min_le_right _ _)
  rcases (mem_subtreeMixes n (D - 1) [s] t).1 ht with ⟨suf, rfl, hlen, hall⟩
  refine (mem_allMixes n D _).2 ⟨by simp,
    by simp only [List.singleton_append, List.length_cons]; omega, ?_⟩
  intro x hx
  rcases List.mem_append.mp hx with hx | hx
  · simp only [List.mem_singleton] at hx
    exact hx ▸ hsn
  · exact hall x hx

theorem dfs_profits_iff (prod : Product) (subs : List Substance)
    (tbl : List (String × Int)) (D : Nat)
    (hn16 : subs.length ≤ MAX_SUBSTANCES) (hD : 1 ≤ D) (x : Int) :
    x ∈ (dfsCandidates subs.length D).map (mixProfit prod subs tbl) ↔
      x ∈ (allMixes subs.length D).map (mixProfit prod subs tbl) := by
  simp only [List.mem_map]
  constructor
  · rintro ⟨m, hm, rfl⟩
    exact ⟨m, dfsCandidates_subset_allMixes _ D hD m hm, rfl⟩
  · rintro ⟨m, hm, rfl⟩
    exact ⟨m, (mem_dfsCandidates _ D hn16 hD m).2
      ((mem_allMixes _ D m).1 hm), rfl⟩

theorem allMixes_ne_nil (n D : Nat) (hn : 1 ≤ n) (hD : 1 ≤ D) :
    allMixes n D ≠ [] :=
  List.ne_nil_of_mem ((mem_allMixes n D [0]).2
    ⟨by simp, by simp; omega, by intro j hj; simp only [List.mem_singleton] at hj; omega⟩)

theorem dfsCandidates_ne_nil (n D : Nat) (hn : 1 ≤ n) (hD : 1 ≤ D) :
    dfsCandidates n D ≠ [] := by
  apply List.ne_nil_of_mem (a := [0])
  simp only [dfsCandidates, List.mem_flatMap, List.mem_range]
  refine ⟨0, lt_min (by decide) hn, ?_⟩
  exact (mem_subtreeMixes n (D - 1) [0] [0]).2 ⟨[], by simp, by simp, by simp⟩

theorem rangePowSum_succ (n k : Nat) :
    (Finset.range (k + 2)).sum (fun d => n ^ d) =
      1 + n * (Finset.range (k + 1)).sum (fun d => n ^ d) := by
  rw [Finset.sum_range_succ']
  rw [Finset.mul_sum]
  simp [pow_succ, mul_comm, Nat.add_comm]

theorem rangePowSum_zero_base (k : Nat) :
    (Finset.range (k + 1)).sum (fun d => (0 : Nat) ^ d) = 1 := by
  induction k with
  | zero => simp
  | succ k2 ih => rw [rangePowSum_succ, ih]

theorem subtreeMixes_length (n : Nat) :
    ∀ (fuel : Nat) (path : List Nat),
      (subtreeMixes n fuel path).length =
        (Finset.range (fuel + 1)).sum (fun d => n ^ d) := by
  intro fuel
  induction fuel with
  | zero => intro path; simp [subtreeMixes]
  | succ k ih =>
    intro path
    simp only [subtreeMixes, List.length_cons, List.length_flatMap]
    have hmap : ∀ j ∈ List.range n,
        (List.length ∘ fun j => subtreeMixes n k (path ++ [j])) j =
          (Finset.range (k + 1)).sum (fun d => n ^ d) :=
      fun j _ => ih (path ++ [j])
    rw [List.map_congr_left hmap, List.map_const' .., List.sum_replicate,
      List.length_range, smul_eq_mul .., rangePowSum_succ]
    omega

theorem bfsChildren_length (n : Nat) (mixes : List (List Nat)) :
    (bfsChildren n mixes).length = mixes.length * n := by
  simp only [bfsChildren, List.length_flatMap]
  have hmap : ∀ m ∈ mixes,
      (List.length ∘ fun m => (List.range n).map (fun j => m ++ [j])) m = n :=
    fun m _ => by simp
  rw [List.map_congr_left hmap, List.map_const' .., List.sum_replicate,
    smul_eq_mul ..]

theorem bfsWorkerMixes_length (n : Nat) :
    ∀ (fuel : Nat) (mixes : List (List Nat)),
      (bfsWorkerMixes n fuel mixes).length =
        mixes.length * (Finset.range (fuel + 1)).sum (fun d => n ^ d) := by
  intro fuel
  induction fuel with
  | zero =>
    intro mixes
    simp [bfsWorkerMixes, bfsLevels]
  | succ k ih =>
    intro mixes
    simp only [bfsWorkerMixes, bfsLevels]
    by_cases hempty : (bfsChildren n mixes).isEmpty
    · rw [if_pos hempty]
      have hlen : mixes.length * n = 0 := by
        rw [← bfsChildren_length n mixes]
        exact List.isEmpty_iff_length_eq_zero.mp hempty
      rcases Nat.mul_eq_zero.mp hlen with hm | hn
      · simp [List.flatten, hm, List.length_eq_zero.mp hm]
      · subst hn
        simp [List.flatten, rangePowSum_zero_base]
    · rw [if_neg hempty]
      show (mixes ++ (bfsLevels n k (bfsChildren n mixes)).flatten).length = _
      rw [List.length_append]
      have hrest := ih (bfsChildren n mixes)
      rw [bfsWorkerMixes] at hrest
      rw [hrest, bfsChildren_length]
      conv_rhs => rw [rangePowSum_succ]
      ring

theorem dfsCandidates_length (n D : Nat) (hD : 1 ≤ D) :
    (dfsCandidates n D).length =
      min MAX_SUBSTANCES n * (Finset.range D).sum (fun d => n ^ d) := by
  simp only [dfsCandidates, List.length_flatMap]
  have hmap : ∀ s ∈ List.range (min MAX_SUBSTANCES n),
      (List.length ∘ fun s => subtreeMixes n (D - 1) [s]) s =
        (Finset.range (D - 1 + 1)).sum (fun d => n ^ d) :=
    fun s _ => subtreeMixes_length n (D - 1) [s]
  rw [List.map_congr_left hmap, List.map_const' .., List.sum_replicate,
    List.length_range, smul_eq_mul ..]
  have hD1 : D - 1 + 1 = D := by omega
  rw [hD1]

theorem dfsCandidates_length_of_le (n D : Nat) (hn16 : n ≤ MAX_SUBSTANCES)
    (hD : 1 ≤ D) :
    (dfsCandidates n D).length = specSearchSpaceN n D := by
  rw [dfsCandidates_length n D hD, min_eq_right hn16, specSearchSpaceN,
    Finset.mul_sum]
  exact Finset.sum_congr rfl (fun d _ => by rw [pow_succ, mul_comm (n ^ d) n])

theorem bfsCandidates_length (n D : Nat) (hD : 1 ≤ D) :
    (bfsCandidates n D).length = specSearchSpaceN n D := by
  simp only [bfsCandidates, List.length_flatMap, specSearchSpaceN]
  have hmap : ∀ s ∈ List.range n,
      (List.length ∘ fun s => bfsWorkerMixes n (D - 1) [[s]]) s =
        (Finset.range (D - 1 + 1)).sum (fun d => n ^ d) :=
    fun s _ => by
      rw [Function.comp_apply, bfsWorkerMixes_length, List.length_singleton,
        one_mul]
  rw [List.map_congr_left hmap, List.map_const' .., List.sum_replicate,
    List.length_range, smul_eq_mul ..]
  have hD1 : D - 1 + 1 = D := by omega
  rw [hD1, Finset.mul_sum]
  exact Finset.sum_congr rfl (fun d _ => by rw [pow_succ, mul_comm (n ^ d) n])

theorem specSearchSpaceN_cast (n D : Nat) :
    ((specSearchSpaceN n D : Nat) : Int) = totalCombinations64 n D := by
  simp only [specSearchSpaceN, totalCombinations64]
  push_cast
  rfl

theorem bfsRec_eq_foldl (prod : Product) (subs : List Substance)
    (tbl : List (String × Int)) :
    ∀ (fuel : Nat) (mixes : List (List Nat)) (c : EffectsCache)
      (b : BestRecord),
      bfsRec prod subs tbl fuel mixes c b =
        ((bfsWorkerMixes subs.length fuel mixes).foldl
          (bfsStep prod subs tbl) (c, b)).2 := by
  intro fuel
  induction fuel with
  | zero =>
    intro mixes c b
    simp [bfsRec, bfsWorkerMixes, bfsLevels, List.flatten]
  | succ k ih =>
    intro mixes c b
    simp only [bfsRec, bfsWorkerMixes, bfsLevels]
    by_cases hempty : (bfsChildren subs.length mixes).isEmpty
    · rw [if_pos hempty, if_pos hempty]
      simp [List.flatten]
    · rw [if_neg hempty, if_neg hempty]
      rw [ih]
      show _ = ((mixes ++ (bfsLevels subs.length k
        (bfsChildren subs.length mixes)).flatten).foldl
          (bfsStep prod subs tbl) (c, b)).2
      rw [List.foldl_append, ← bfsWorkerMixes, Prod.mk.eta]

theorem foldl_bfsStep_profit_le (prod : Product) (subs : List Substance)
    (tbl : List (String × Int)) :
    ∀ (l : List (List Nat)) (st : EffectsCache × BestRecord),
      st.2.profitCents ≤
        ((l.foldl (bfsStep prod subs tbl) st)).2.profitCents := by
  intro l
  induction l with
  | nil => intro st; exact le_refl _
  | cons m rest ih =>
    intro st
    rw [List.foldl_cons]
    exact le_trans (le_updateBest_profit prod tbl st.2 m _ _) (ih _)

theorem foldl_bfsStep_nochange (prod : Product) (subs : List Substance)
    (tbl : List (String × Int)) :
    ∀ (l : List (List Nat)) (c : EffectsCache) (b : BestRecord),
      (∀ p ∈ evalProfits prod subs tbl c l, p ≤ b.profitCents) →
        (l.foldl (bfsStep prod subs tbl) (c, b)).2 = b := by
  intro l
  induction l with
  | nil => intro c b _; rfl
  | cons m rest ih =>
    intro c b h
    rw [List.foldl_cons]
    have hstep : bfsStep prod subs tbl (c, b) m =
        ((calculateEffectsForMix subs prod.initialEffect c m).2, b) := by
      simp only [bfsStep]
      congr 1
      exact updateBest_eq_self prod tbl b m _ _
        (h _ (by simp [evalProfits]))
    rw [hstep]
    exact ih _ b (fun p hp => h p (by simp [evalProfits, hp]))

theorem updateBest_initial (prod : Product) (tbl : List (String × Int))
    (mix : List Nat) (es : Finset String) (cost : Int) :
    updateBest prod tbl initialBest mix es cost =
      if calculateFinalPrice prod.name es tbl - cost > 0 then
        (⟨mix, calculateFinalPrice prod.name es tbl - cost,
          calculateFinalPrice prod.name es tbl, cost⟩ : BestRecord)
      else initialBest := rfl

theorem merge_step_eq_update (prod : Product) (tbl : List (String × Int))
    (mix : List Nat) (es : Finset String) (cost : Int) (g : BestRecord)
    (hg : 0 ≤ g.profitCents) :
    (if (updateBest prod tbl initialBest mix es cost).profitCents >
        g.profitCents
      then updateBest prod tbl initialBest mix es cost else g) =
      updateBest prod tbl g mix es cost := by
  by_cases hp : calculateFinalPrice prod.name es tbl - cost > 0
  · rw [updateBest_initial, if_pos hp]
    rfl
  · rw [updateBest_initial, if_neg hp]
    have h0 : ¬ (initialBest.profitCents > g.profitCents) := by
      simp only [initialBest]
      omega
    rw [if_neg h0, updateBest_eq_self prod tbl g mix es cost (by omega)]

theorem foldl_merge_eq_foldl_update {α : Type} (prod : Product)
    (tbl : List (String × Int)) (mixF : α → List Nat)
    (esF : α → Finset String) (costF : α → Int) :
    ∀ (l : List α) (g : BestRecord), 0 ≤ g.profitCents →
      l.foldl (fun g x =>
        if (updateBest prod tbl initialBest (mixF x) (esF x)
            (costF x)).profitCents > g.profitCents
        then updateBest prod tbl initialBest (mixF x) (esF x) (costF x)
        else g) g =
      l.foldl (fun g x => updateBest prod tbl g (mixF x) (esF x) (costF x))
        g := by
  intro l
  induction l with
  | nil => intro g _; rfl
  | cons x rest ih =>
    intro g hg
    simp only [List.foldl_cons]
    rw [merge_step_eq_update prod tbl _ _ _ g hg]
    exact ih _ (le_trans hg (le_updateBest_profit prod tbl g _ _ _))

theorem calcEffects_empty_single (subs : List Substance) (init : String)
    (s : Nat) :
    calculateEffectsForMix subs init emptyCache [s] =
      (applySubstanceRules {init} (subs.getD s dummySubstance) 1,
        cacheSet (cacheSet emptyCache 0 {init}) 1
          (applySubstanceRules {init} (subs.getD s dummySubstance) 1)) := rfl

theorem bfsWorker_depth_one (prod : Product) (subs : List Substance)
    (tbl : List (String × Int)) (s : Nat) :
    bfsWorker prod subs tbl 1 s =
      updateBest prod tbl initialBest [s]
        (applySubstanceRules {prod.initialEffect}
          (subs.getD s dummySubstance) 1)
        ((subs.getD s dummySubstance).cost) := by
  show (bfsStep prod subs tbl (emptyCache, initialBest) [s]).2 = _
  simp only [bfsStep, calcEffects_empty_single, calculateFinalCost_single]

theorem bfsWorker_profit_nonneg (prod : Product) (subs : List Substance)
    (tbl : List (String × Int)) (D s : Nat) :
    0 ≤ (bfsWorker prod subs tbl D s).profitCents := by
  rw [bfsWorker, bfsRec_eq_foldl]
  exact foldl_bfsStep_profit_le prod subs tbl _ (emptyCache, initialBest)

theorem foldl_workerMerge_nonneg (prod : Product) (subs : List Substance)
    (tbl : List (String × Int)) (D : Nat) :
    ∀ (l : List Nat) (g : BestRecord), 0 ≤ g.profitCents →
      0 ≤ (l.foldl (fun g s =>
        let w := bfsWorker prod subs tbl D s
        if w.profitCents > g.profitCents then w else g) g).profitCents := by
  intro l
  induction l with
  | nil => intro g hg; exact hg
  | cons s rest ih =>
    intro g hg
    rw [List.foldl_cons]
    by_cases hw : (bfsWorker prod subs tbl D s).profitCents > g.profitCents
    · simp only [if_pos hw]
      exact ih _ (bfsWorker_profit_nonneg prod subs tbl D s)
    · simp only [if_neg hw]
      exact ih _ hg

theorem foldl_workerMerge_init (prod : Product) (subs : List Substance)
    (tbl : List (String × Int)) (D : Nat) :
    ∀ (l : List Nat),
      (∀ s ∈ l, bfsWorker prod subs tbl D s = initialBest) →
        l.foldl (fun g s =>
          let w := bfsWorker prod subs tbl D s
          if w.profitCents > g.profitCents then w else g) initialBest =
          initialBest := by
  intro l
  induction l with
  | nil => intro _; rfl
  | cons s rest ih =>
    intro h
    rw [List.foldl_cons]
    have hs := h s (by simp)
    rw [hs]
    simp only [gt_iff_lt, lt_self_iff_false, if_false]
    exact ih (fun x hx => h x (by simp [hx]))

/-- C1 (counterexample): with a single substance whose cost (10000 cents)
exceeds any attainable sale price and maxDepth 1, every mix has strictly
negative profit, so the best-profit accumulator (initialised to 0, the value
of `-std::numeric_limits<int>::infinity()` for `int`) is never replaced and
the search reports profit 0, not the maximum mix profit -6500 claimed. -/
theorem C1_counterexample :
    (findBestMixDFS cxProduct priceySubs [] 1).profitCents ≠
      bestPossibleProfit cxProduct priceySubs [] 1 := by decide

/-- C1 (amended): for maxDepth in [1, MAX_DEPTH], a non-empty substance
list of at most MAX_SUBSTANCES entries, the DFS search returns profitCents
equal to the maximum of 0 and the maximum profit over all mixes of length
1..maxDepth; whenever that maximum is positive the returned record is the
consistent evaluation of a profit-maximal mix, and when no mix has positive
profit the result is the untouched initial record; the best-so-far record
is replaced exactly when a strictly greater profit is found. -/
theorem C1_dfs_search_optimal (prod : Product) (subs : List Substance)
    (tbl : List (String × Int)) (D : Nat) (hD : 1 ≤ D)
    (hcap : D ≤ MAX_DEPTH) (hne : subs ≠ [])
    (hfan : subs.length ≤ MAX_SUBSTANCES) :
    (findBestMixDFS prod subs tbl D).profitCents =
      max 0 (bestPossibleProfit prod subs tbl D) ∧
    (0 < bestPossibleProfit prod subs tbl D →
      ∃ m ∈ allMixes subs.length D,
        mixProfit prod subs tbl m = bestPossibleProfit prod subs tbl D ∧
        findBestMixDFS prod subs tbl D =
          ⟨toSubstanceNames m subs, mixProfit prod subs tbl m,
            calculateFinalPrice prod.name
              (effectsForMix subs prod.initialEffect m) tbl,
            calculateFinalCost m subs⟩) ∧
    (bestPossibleProfit prod subs tbl D ≤ 0 →
      findBestMixDFS prod subs tbl D = ⟨[], 0, 0, 0⟩) ∧
    (∀ (b : BestRecord) (mix : List Nat) (es : Finset String) (cost : Int),
      updateBest prod tbl b mix es cost =
        if calculateFinalPrice prod.name es tbl - cost > b.profitCents
        then ⟨mix, calculateFinalPrice prod.name es tbl - cost,
          calculateFinalPrice prod.name es tbl, cost⟩
        else b) := by
  have hn : 1 ≤ subs.length := List.length_pos.mpr hne
  have hdne : dfsCandidates subs.length D ≠ [] :=
    dfsCandidates_ne_nil _ D hn hD
  have hane : allMixes subs.length D ≠ [] := allMixes_ne_nil _ D hn hD
  have hmapdne :
      (dfsCandidates subs.length D).map (mixProfit prod subs tbl) ≠ [] := by
    simpa using hdne
  have hmapane :
      (allMixes subs.length D).map (mixProfit prod subs tbl) ≠ [] := by
    simpa using hane
  have hmax :
      listMaxI ((dfsCandidates subs.length D).map (mixProfit prod subs tbl)) =
        bestPossibleProfit prod subs tbl D :=
    listMaxI_congr _ _ hmapdne hmapane
      (dfs_profits_iff prod subs tbl D hfan hD)
  have hprofit : (dfsCore prod subs tbl D).profitCents =
      max 0 (bestPossibleProfit prod subs tbl D) := by
    rw [dfsCore, foldl_pureStep_profit,
      foldl_max_eq_listMaxI _ _ hmapdne, hmax]
    rfl
  refine ⟨?_, ?_, ?_, fun b mix es cost => rfl⟩
  · rw [findBestMixDFS_eq]
    exact hprofit
  · intro hpos
    rcases foldl_pureStep_mem prod subs tbl (dfsCandidates subs.length D)
        initialBest with hinit | ⟨m, hm, hrec⟩
    · exfalso
      have : (dfsCore prod subs tbl D).profitCents = 0 := by
        rw [dfsCore, hinit]
        rfl
      rw [hprofit] at this
      omega
    · refine ⟨m, dfsCandidates_subset_allMixes _ D hD m hm, ?_, ?_⟩
      · have hp : (dfsCore prod subs tbl D).profitCents =
            mixProfit prod subs tbl m := by
          rw [dfsCore, hrec]
        rw [hprofit] at hp
        omega
      · have hp : (dfsCore prod subs tbl D).profitCents =
            mixProfit prod subs tbl m := by
          rw [dfsCore, hrec]
        rw [hprofit] at hp
        rw [findBestMixDFS_eq, dfsCore, hrec]
        simp only [packResult]
  · intro hle
    have hstay : dfsCore prod subs tbl D = initialBest := by
      rw [dfsCore]
      refine foldl_pureStep_nochange prod subs tbl _ initialBest ?_
      intro m hm
      have hmem : mixProfit prod subs tbl m ∈
          (dfsCandidates subs.length D).map (mixProfit prod subs tbl) :=
        List.mem_map.mpr ⟨m, hm, rfl⟩
      have := le_listMaxI _ _ hmem
      rw [hmax] at this
      exact le_trans this hle
    rw [findBestMixDFS_eq, hstay]
    rfl

/-- C1 (witness): the amended theorem instantiated at the specification's
Example 1 (product Weed/Calming, substance Cuke, maxDepth 1). -/
theorem C1_witness :
    (findBestMixDFS exProduct exSubs exTbl 1).profitCents =
      max 0 (bestPossibleProfit exProduct exSubs exTbl 1) ∧
    (0 < bestPossibleProfit exProduct exSubs exTbl 1 →
      ∃ m ∈ allMixes exSubs.length 1,
        mixProfit exProduct exSubs exTbl m =
          bestPossibleProfit exProduct exSubs exTbl 1 ∧
        findBestMixDFS exProduct exSubs exTbl 1 =
          ⟨toSubstanceNames m exSubs, mixProfit exProduct exSubs exTbl m,
            calculateFinalPrice exProduct.name
              (effectsForMix exSubs exProduct.initialEffect m) exTbl,
            calculateFinalCost m exSubs⟩) ∧
    (bestPossibleProfit exProduct exSubs exTbl 1 ≤ 0 →
      findBestMixDFS exProduct exSubs exTbl 1 = ⟨[], 0, 0, 0⟩) ∧
    (∀ (b : BestRecord) (mix : List Nat) (es : Finset String) (cost : Int),
      updateBest exProduct exTbl b mix es cost =
        if calculateFinalPrice exProduct.name es exTbl - cost > b.profitCents
        then ⟨mix, calculateFinalPrice exProduct.name es exTbl - cost,
          calculateFinalPrice exProduct.name es exTbl, cost⟩
        else b) :=
  C1_dfs_search_optimal exProduct exSubs exTbl 1 (by decide) (by decide)
    (by decide) (by decide)

/-- C2 (counterexample): two rule-free substances, maxDepth 3.  At depth 3
the BFS depth-indexed cache serves the effects of the last depth-2 mix
[A,B] as the parent of [A,A,A], inflating its sale price, so findBestMix
reports profit 7000 while findBestMixDFS reports the true optimum 3500. -/
theorem C2_counterexample :
    (findBestMix cxProduct subsAB tblB 3).profitCents ≠
      (findBestMixDFS cxProduct subsAB tblB 3).profitCents := by decide

/-- C2 (amended): at maxDepth 1 (where the depth-indexed cache is always
parent-correct and breadth-first and depth-first visit the single level in
the same order, with at most MAX_SUBSTANCES substances so the DFS thread
cap drops no starting substance) the two searches return identical
profitCents.  Only the profit is schedule-independent: among equal maximal
profits the threaded merge keeps whichever worker updates first, so
sellPriceCents, costCents and the mix itself may differ between the two
searches even at depth 1. -/
theorem C2_bfs_dfs_equal_depth_one (prod : Product) (subs : List Substance)
    (tbl : List (String × Int)) (hfan : subs.length ≤ MAX_SUBSTANCES) :
    (findBestMix prod subs tbl 1).profitCents =
      (findBestMixDFS prod subs tbl 1).profitCents := by
  have hfull : findBestMix prod subs tbl 1 = findBestMixDFS prod subs tbl 1 := by
    simp only [findBestMix, findBestMixDFS, min_eq_right hfan]
    have h1 : ∀ (g : BestRecord) (s : Nat), s ∈ List.range subs.length →
        (let w := bfsWorker prod subs tbl 1 s
          if w.profitCents > g.profitCents then w else g) =
        (if (updateBest prod tbl initialBest [s]
              (applySubstanceRules {prod.initialEffect}
                (subs.getD s dummySubstance) 1)
              ((subs.getD s dummySubstance).cost)).profitCents > g.profitCents
          then updateBest prod tbl initialBest [s]
            (applySubstanceRules {prod.initialEffect}
              (subs.getD s dummySubstance) 1)
            ((subs.getD s dummySubstance).cost)
          else g) := by
      intro g s _
      rw [bfsWorker_depth_one]
    rw [foldl_congr_mem _ _ h1]
    rw [foldl_merge_eq_foldl_update prod tbl (fun s => [s])
      (fun s => applySubstanceRules {prod.initialEffect}
        (subs.getD s dummySubstance) 1)
      (fun s => (subs.getD s dummySubstance).cost)
      (List.range subs.length) initialBest (le_refl _)]
    rfl
  rw [hfull]

/-- C2 (witness): the amended depth-1 profit equality at the
specification's Example 1 inputs. -/
theorem C2_witness :
    (findBestMix exProduct exSubs exTbl 1).profitCents =
      (findBestMixDFS exProduct exSubs exTbl 1).profitCents :=
  C2_bfs_dfs_equal_depth_one exProduct exSubs exTbl (by decide)

/-- C3: `calculateEffectsForMix` does agree with the uncached reference
fold on a fresh cache, but after the call history the breadth-first scan
produces ([0]; [0,0]; [0,1]) its depth-2 entry holds the effects of [0,1],
so the query for [0,0,0] applies substance 0 to a stale parent and returns
an effect set different from the reference: enabling the depth-indexed
cache changes results. -/
theorem C3_cached_effects_bug :
    (∀ (subs : List Substance) (init : String) (mix : List Nat),
      (calculateEffectsForMix subs init emptyCache mix).1 =
        effectsForMix subs init mix) ∧
    (calculateEffectsForMix subsAB "I" c3history [0, 0, 0]).1 ≠
      effectsForMix subsAB "I" [0, 0, 0] :=
  ⟨fun subs init mix => calculateEffectsForMix_fresh subs init mix,
    by decide⟩

/-- C4: `calculateFinalPrice` computes base + (base * totalMultiplier) / 100
with truncating integer division, where the base is 7000/15000/3500 cents by
substring match exactly as the specification words it, absent multiplier
entries contribute 0, and the Example 1 price is 4550 cents. -/
theorem C4_price_formula :
    (∀ (name : String) (es : Finset String) (tbl : List (String × Int)),
      calculateFinalPrice name es tbl =
        specBasePrice name +
          Int.tdiv (specBasePrice name * es.sum (lookupMultiplier tbl))
            100) ∧
    (∀ (tbl : List (String × Int)) (e : String),
      (∀ p ∈ tbl, p.fst ≠ e) → lookupMultiplier tbl e = 0) ∧
    specBasePrice "BlueMeth" = 7000 ∧
    specBasePrice "PureCocaine" = 15000 ∧
    specBasePrice "Weed" = 3500 ∧
    calculateFinalPrice "Weed" (insert "Calming" {"Energizing"})
      [("Calming", 20), ("Energizing", 10)] = 4550 := by
  refine ⟨fun name es tbl => rfl, ?_, by decide, by decide, by decide,
    by decide⟩
  intro tbl e h
  have hnone : tbl.find? (fun p => p.fst == e) = none :=
    List.find?_eq_none.mpr (fun x hx => by simpa using h x hx)
  simp [lookupMultiplier, hnone]

/-- C4 (witness): a table without the queried effect contributes zero. -/
theorem C4_witness : lookupMultiplier [("Sedating", 5)] "Calming" = 0 :=
  C4_price_formula.2.1 [("Sedating", 5)] "Calming" (by decide)

/-- C5: rules are processed in list order against the frozen snapshot; a
firing replace rule with non-empty withEffect whose target is present and
replacement absent swaps them; a firing add rule with absent target inserts
it; and the Example 2 replace rule turns {Calming} into exactly
{Euphoric}. -/
theorem C5_rule_application :
    (∀ (og : Finset String) (rules : List SubstanceRule)
      (r : SubstanceRule),
      applyRulesList og (rules ++ [r]) =
        applyRule og (applyRulesList og rules) r) ∧
    (∀ (og w : Finset String) (r : SubstanceRule),
      (∀ c ∈ r.condition, c ∈ og) → (∀ np ∈ r.ifNotPresent, np ∉ og) →
      r.type = "replace" → r.withEffect ≠ "" → r.target ∈ w →
      r.withEffect ∉ w →
      applyRule og w r = insert r.withEffect (w.erase r.target)) ∧
    (∀ (og w : Finset String) (r : SubstanceRule),
      (∀ c ∈ r.condition, c ∈ og) → (∀ np ∈ r.ifNotPresent, np ∉ og) →
      r.type = "add" → r.target ∉ w →
      applyRule og w r = insert r.target w) ∧
    applyRulesList {"Calming"}
      [⟨"replace", ["Calming"], [], "Calming", "Euphoric"⟩] =
      ({"Euphoric"} : Finset String) := by
  refine ⟨?_, ?_, ?_, by decide⟩
  · intro og rules r
    simp [applyRulesList, List.foldl_append]
  · intro og w r h1 h2 h3 h4 h5 h6
    simp only [applyRule]
    rw [if_neg (not_not_intro h1), if_neg (not_not_intro h2),
      if_pos ⟨h3, h4⟩, if_pos ⟨h5, h6⟩]
  · intro og w r h1 h2 h3 h4
    simp only [applyRule]
    rw [if_neg (not_not_intro h1), if_neg (not_not_intro h2),
      if_neg (by rintro ⟨hr, -⟩; rw [h3] at hr; exact absurd hr (by decide)),
      if_pos h3, if_pos h4]

/-- C5 (witness): the replace case applied to the Example 2 data. -/
theorem C5_witness :
    applyRule {"Calming"} {"Calming"}
      ⟨"replace", ["Calming"], [], "Calming", "Euphoric"⟩ =
      insert "Euphoric" (({"Calming"} : Finset String).erase "Calming") :=
  C5_rule_application.2.1 {"Calming"} {"Calming"}
    ⟨"replace", ["Calming"], [], "Calming", "Euphoric"⟩
    (by decide) (by decide) rfl (by decide) (by decide) (by decide)

/-- C6: the default effect is inserted exactly when the recipe-length
argument is below 9; at or beyond 9 the output is just the rules fold (so a
pre-existing or rule-added occurrence survives but nothing is added), and
at mix position 10 (recipe length 10) `capSub`'s add rule still fires while
its default effect "D" is not added. -/
theorem C6_default_effect_cap :
    (∀ (ce : Finset String) (sub : Substance) (len : Nat), len < 9 →
      applySubstanceRules ce sub len =
        insert sub.defaultEffect (applyRulesList ce sub.rules)) ∧
    (∀ (ce : Finset String) (sub : Substance) (len : Nat), 9 ≤ len →
      applySubstanceRules ce sub len = applyRulesList ce sub.rules) ∧
    (∀ (ce : Finset String) (sub : Substance) (len : Nat),
      sub.defaultEffect ∉ applyRulesList ce sub.rules →
      (sub.defaultEffect ∈ applySubstanceRules ce sub len ↔ len < 9)) ∧
    applySubstanceRules {"I"} capSub 10 = insert "X" {"I"} ∧
    applySubstanceRules {"I"} capSub 1 = insert "D" (insert "X" {"I"}) := by
  refine ⟨?_, ?_, ?_, by decide, by decide⟩
  · intro ce sub len h
    simp [applySubstanceRules, h]
  · intro ce sub len h
    simp [applySubstanceRules, Nat.not_lt.mpr h]
  · intro ce sub len h
    by_cases hlen : len < 9
    · simp [applySubstanceRules, hlen]
    · simp [applySubstanceRules, hlen, h]

/-- C6 (witness): the below-9 insertion at recipe length 1. -/
theorem C6_witness :
    applySubstanceRules {"I"} capSub 1 =
      insert capSub.defaultEffect (applyRulesList {"I"} capSub.rules) :=
  C6_default_effect_cap.1 {"I"} capSub 1 (by decide)

/-- C7 (counterexample): with 17 substances and maxDepth 1 the DFS caps the
substance count at MAX_SUBSTANCES = 16 before summing, so its progress
denominator is 16, not the claimed sum 17 of substanceCount ^ d. -/
theorem C7_counterexample :
    dfsTotalCombinations 17 1 ≠ min ((specSearchSpaceN 17 1 : Nat) : Int)
      INT_MAX := by decide

/-- C7 (amended): for maxDepth at least 1 the BFS evaluates exactly the
sum over d = 1..maxDepth of substanceCount ^ d candidate mixes, and its
progress denominator is that sum clamped to INT_MAX; the DFS spawns only
min(MAX_SUBSTANCES, substanceCount) workers, so it evaluates
min(16, n) * (sum over d = 0..maxDepth-1 of n ^ d) mixes — equal to the
claimed sum exactly when the substance count is at most 16 — and its
denominator caps the substance count at MAX_SUBSTANCES before summing. -/
theorem C7_search_space (n D : Nat) (hD : 1 ≤ D) :
    (bfsCandidates n D).length = specSearchSpaceN n D ∧
    (dfsCandidates n D).length =
      min MAX_SUBSTANCES n * (Finset.range D).sum (fun d => n ^ d) ∧
    (n ≤ MAX_SUBSTANCES →
      (dfsCandidates n D).length = specSearchSpaceN n D) ∧
    bfsTotalCombinations n D =
      min ((specSearchSpaceN n D : Nat) : Int) INT_MAX ∧
    dfsTotalCombinations n D =
      min ((specSearchSpaceN (min MAX_SUBSTANCES n) D : Nat) : Int)
        INT_MAX := by
  refine ⟨bfsCandidates_length n D hD, dfsCandidates_length n D hD,
    fun hn16 => dfsCandidates_length_of_le n D hn16 hD, ?_, ?_⟩
  · rw [bfsTotalCombinations, specSearchSpaceN_cast]
  · rw [dfsTotalCombinations, specSearchSpaceN_cast]

/-- C7 (witness): the amended count identities at 2 substances and
maxDepth 3 (14 candidates each), the capped-count clause discharged. -/
theorem C7_witness :
    (bfsCandidates 2 3).length = specSearchSpaceN 2 3 ∧
    (dfsCandidates 2 3).length =
      min MAX_SUBSTANCES 2 * (Finset.range 3).sum (fun d => 2 ^ d) ∧
    (dfsCandidates 2 3).length = specSearchSpaceN 2 3 ∧
    bfsTotalCombinations 2 3 =
      min ((specSearchSpaceN 2 3 : Nat) : Int) INT_MAX ∧
    dfsTotalCombinations 2 3 =
      min ((specSearchSpaceN (min MAX_SUBSTANCES 2) 3 : Nat) : Int)
        INT_MAX :=
  ⟨(C7_search_space 2 3 (by decide)).1,
    (C7_search_space 2 3 (by decide)).2.1,
    (C7_search_space 2 3 (by decide)).2.2.1 (by decide),
    (C7_search_space 2 3 (by decide)).2.2.2.1,
    (C7_search_space 2 3 (by decide)).2.2.2.2⟩

/-- C8 (counterexample): violating the preconditions does not fail fast:
an empty substance list yields a silent empty result with profit 0, and
pushing onto a DFS path already at the MAX_DEPTH capacity silently leaves
the state unchanged (silent truncation). -/
theorem C8_counterexample :
    findBestMixDFS cxProduct [] [] 3 = ⟨[], 0, 0, 0⟩ ∧
    DFSState.addSubstance fullDFSState 0 subsAB = fullDFSState := by decide

/-- C8 (amended): the searches perform no precondition validation and
never fail fast: an empty substance list silently returns the empty
zero-profit result from either search; the BFS at maxDepth 0 silently
behaves exactly like maxDepth 1 instead of failing (the DFS at maxDepth 0
instead performs an out-of-bounds `effectsCache[1]` write,
src/cpp/dfs_algorithm.cpp lines 114 and 122 — undefined behaviour, so no
fail-fast error there either, but nothing this total model can state); and
`DFSState::addSubstance` beyond the MAX_DEPTH capacity is a silent no-op
rather than a fail-fast error. -/
theorem C8_no_validation :
    (∀ (prod : Product) (tbl : List (String × Int)) (D : Nat),
      findBestMix prod [] tbl D = ⟨[], 0, 0, 0⟩) ∧
    (∀ (prod : Product) (tbl : List (String × Int)) (D : Nat),
      findBestMixDFS prod [] tbl D = ⟨[], 0, 0, 0⟩) ∧
    (∀ (prod : Product) (subs : List Substance)
      (tbl : List (String × Int)),
      findBestMix prod subs tbl 0 = findBestMix prod subs tbl 1) ∧
    (∀ (st : DFSState) (i : Nat) (subs : List Substance),
      MAX_DEPTH ≤ st.substanceIndices.length →
        DFSState.addSubstance st i subs = st) := by
  refine ⟨fun prod tbl D => rfl, fun prod tbl D => rfl,
    fun prod subs tbl => rfl, ?_⟩
  intro st i subs h
  simp [DFSState.addSubstance, Nat.not_lt.mpr h]

/-- C8 (witness): the silent-truncation clause at a full path state. -/
theorem C8_witness :
    DFSState.addSubstance fullDFSState 1 subsAB = fullDFSState :=
  C8_no_validation.2.2.2 fullDFSState 1 subsAB (by decide)

/-- C9: both searches' progress-event traces are non-empty and end with the
unconditional final report whose processed count equals the total. -/
theorem C9_final_progress_report (n D : Nat) :
    findBestMixEvents n D ≠ [] ∧
    (findBestMixEvents n D).getLast? =
      some (D, bfsTotalCombinations n D, bfsTotalCombinations n D) ∧
    findBestMixDFSEvents n D ≠ [] ∧
    (findBestMixDFSEvents n D).getLast? =
      some (D, dfsTotalCombinations n D, dfsTotalCombinations n D) := by
  refine ⟨by simp [findBestMixEvents], ?_, by simp [findBestMixDFSEvents],
    ?_⟩
  · simp only [findBestMixEvents]
    exact List.getLast?_concat _
  · simp only [findBestMixDFSEvents]
    exact List.getLast?_concat _

/-- C10: both searches return non-negative profit because the best-profit
accumulator starts at 0 (`-std::numeric_limits<int>::infinity()` is 0 for
`int`) and is only replaced by strictly greater profits; when no evaluated
candidate has strictly positive profit the result is the empty mix with
zero sale price and cost. -/
theorem C10_profit_nonneg (prod : Product) (subs : List Substance)
    (tbl : List (String × Int)) (D : Nat) :
    0 ≤ (findBestMix prod subs tbl D).profitCents ∧
    0 ≤ (findBestMixDFS prod subs tbl D).profitCents ∧
    ((∀ p ∈ bfsEvaluatedProfits prod subs tbl D, p ≤ 0) →
      findBestMix prod subs tbl D = ⟨[], 0, 0, 0⟩) ∧
    (1 ≤ D →
      (∀ m ∈ allMixes subs.length D, mixProfit prod subs tbl m ≤ 0) →
      findBestMixDFS prod subs tbl D = ⟨[], 0, 0, 0⟩) := by
  refine ⟨?_, ?_, ?_, ?_⟩
  · simp only [findBestMix]
    exact foldl_workerMerge_nonneg prod subs tbl D
      (List.range subs.length) initialBest (le_refl _)
  · rw [findBestMixDFS_eq]
    show 0 ≤ (dfsCore prod subs tbl D).profitCents
    rw [dfsCore, foldl_pureStep_profit]
    exact le_foldl_max _ _
  · intro h
    have hworkers : ∀ s ∈ List.range subs.length,
        bfsWorker prod subs tbl D s = initialBest := by
      intro s hs
      rw [bfsWorker, bfsRec_eq_foldl]
      refine foldl_bfsStep_nochange prod subs tbl _ emptyCache initialBest
        ?_
      intro p hp
      exact h p (List.mem_flatMap.mpr ⟨s, hs, hp⟩)
    simp only [findBestMix]
    rw [foldl_workerMerge_init prod subs tbl D _ hworkers]
    rfl
  · intro hD h
    have hstay : dfsCore prod subs tbl D = initialBest := by
      rw [dfsCore]
      refine foldl_pureStep_nochange prod subs tbl _ initialBest ?_
      intro m hm
      exact h m (dfsCandidates_subset_allMixes _ D hD m hm)
    rw [findBestMixDFS_eq, hstay]
    rfl

/-- C10 (witness): with the overpriced single substance no mix is
profitable and the DFS search returns the empty zero result. -/
theorem C10_witness :
    findBestMixDFS cxProduct priceySubs [] 1 = ⟨[], 0, 0, 0⟩ :=
  (C10_profit_nonneg cxProduct priceySubs [] 1).2.2.2 (by decide)
    (by decide)
